import Mathlib

/-!
Verification of the running-challenge rules engine.

The development shallowly embeds the core rules of the dashboard server:
the distance rule, the goal evaluator, the progress store, the streak and
miss analyzer, the elimination controller, the bailout ledger and the
winner resolver.  Calendar dates are modelled as natural-number day keys
(the source compares ISO date strings, whose lexicographic order agrees
with chronological order), distances as rationals, and statuses as the
raw strings the source compares against.
-/

/-! ### Distance rule

The source builds the string consisting of the decimal representation of
the 1-based month, a dot, and the day-of-month left-padded with zeros to
two digits, then parses it as a decimal number.  Strings of digits are
modelled as big-endian digit lists.
-/

/-- Big-endian decimal digits of a natural number, as produced by the
source's number-to-string conversion. -/
def decimalDigits (n : Nat) : List Nat :=
  (Nat.digits 10 n).reverse

/-- Left-pad a digit list with zeros to length 2, as the source's
padStart call does with the day-of-month string. -/
def padStart2 (l : List Nat) : List Nat :=
  if l.length < 2 then List.replicate (2 - l.length) 0 ++ l else l

/-- Parse an integer digit list and a fractional digit list (both
big-endian) as a decimal number, as the source's float parse does with
the string intPart.fracPart. -/
def parseDecimal (intDigits fracDigits : List Nat) : ℚ :=
  ((Nat.ofDigits (10 : ℕ) intDigits.reverse : ℕ) : ℚ)
    + ((Nat.ofDigits (10 : ℕ) fracDigits.reverse : ℕ) : ℚ) / (10 : ℚ) ^ fracDigits.length

/-- The daily required distance: concatenate the month, a dot, and the
zero-padded day, then parse as a decimal. -/
def getRequiredDistance (month day : Nat) : ℚ :=
  parseDecimal (decimalDigits month) (padStart2 (decimalDigits day))

/-! ### Goal evaluator -/

/-- A qualifying run; the goal evaluator only reads its distance. -/
structure Run where
  distance : ℚ
deriving Repr, DecidableEq

/-- Result record of the goal evaluator. -/
structure GoalResult where
  totalDistance : ℚ
  requiredDistance : ℚ
  goalMet : Bool
  shortfall : ℚ
deriving Repr, DecidableEq

/-- Sum a day's runs and compare with the required distance. -/
def checkDailyGoal (runs : List Run) (requiredDistance : ℚ) : GoalResult :=
  let totalDistance := runs.foldl (fun sum run => sum + run.distance) 0
  { totalDistance := totalDistance
    requiredDistance := requiredDistance
    goalMet := decide (requiredDistance ≤ totalDistance)
    shortfall := max 0 (requiredDistance - totalDistance) }

/-! ### Supporting lemmas for the distance rule -/

theorem decimalDigits_reverse (n : Nat) :
    (decimalDigits n).reverse = Nat.digits 10 n := by
  simp [decimalDigits]

theorem decimalDigits_single (d : Nat) (h1 : 1 ≤ d) (h2 : d < 10) :
    decimalDigits d = [d] := by
  unfold decimalDigits
  rw [Nat.digits_def' (by norm_num : (1 : ℕ) < 10) (by omega)]
  rw [Nat.mod_eq_of_lt h2, Nat.div_eq_of_lt h2]
  simp

theorem decimalDigits_length_two (d : Nat) (h1 : 10 ≤ d) (h2 : d < 100) :
    (decimalDigits d).length = 2 := by
  have hlen : (Nat.digits 10 d).length = Nat.log 10 d + 1 :=
    Nat.digits_len 10 d (by norm_num) (by omega)
  have hlog : Nat.log 10 d = 1 :=
    Nat.log_eq_of_pow_le_of_lt_pow (by simpa using h1) (by simpa using h2)
  simp [decimalDigits, hlen, hlog]

/-- Shared helper: the concatenate-and-parse pipeline evaluates to
month + day/100 on every in-range date. -/
theorem requiredDistance_formula (month day : Nat)
    (hd1 : 1 ≤ day) (hd2 : day ≤ 31) :
    getRequiredDistance month day = (month : ℚ) + (day : ℚ) / 100 := by
  unfold getRequiredDistance parseDecimal
  rw [decimalDigits_reverse, Nat.ofDigits_digits]
  rcases lt_or_le day 10 with hlt | hge
  · have hdig : decimalDigits day = [day] := decimalDigits_single day hd1 hlt
    have hpad : padStart2 (decimalDigits day) = [0, day] := by
      simp [padStart2, hdig]
    rw [hpad]
    have hofd : (Nat.ofDigits (10 : ℕ) ([0, day].reverse) : ℕ) = day := by
      simp [Nat.ofDigits_cons, Nat.ofDigits_nil]
    rw [hofd]
    norm_num
  · have hlen : (decimalDigits day).length = 2 :=
      decimalDigits_length_two day hge (by omega)
    have hpad : padStart2 (decimalDigits day) = decimalDigits day := by
      simp [padStart2, hlen]
    rw [hpad, decimalDigits_reverse, hlen, Nat.ofDigits_digits]
    norm_num

/-- Shared helper: crossing a month boundary strictly increases the
required distance. -/
theorem boundary_lt_aux (x : Nat) :
    getRequiredDistance x 31 < getRequiredDistance (x + 1) 1 := by
  rw [requiredDistance_formula x 31 (by norm_num) (by norm_num),
    requiredDistance_formula (x + 1) 1 (by norm_num) (by norm_num)]
  push_cast
  linarith

/-- Claim C4: for every calendar date with day between 1 and 31, the
required distance obtained by concatenating the month, a decimal point and
the day zero-padded to two digits and parsing the result equals
month + day/100. -/
theorem getRequiredDistance_eq (month day : Nat)
    (hd1 : 1 ≤ day) (hd2 : day ≤ 31) :
    getRequiredDistance month day = (month : ℚ) + (day : ℚ) / 100 :=
  requiredDistance_formula month day hd1 hd2

/-- Witness for C4 at the dates named in the spec: March 7, December 31 and
January 5 evaluate to 3.07, 12.31 and 1.05. -/
theorem getRequiredDistance_eq_witness :
    getRequiredDistance 3 7 = (3 : ℚ) + (7 : ℚ) / 100
      ∧ getRequiredDistance 12 31 = (12 : ℚ) + (31 : ℚ) / 100
      ∧ getRequiredDistance 1 5 = (1 : ℚ) + (5 : ℚ) / 100 :=
  ⟨getRequiredDistance_eq 3 7 (by norm_num) (by norm_num),
   getRequiredDistance_eq 12 31 (by norm_num) (by norm_num),
   getRequiredDistance_eq 1 5 (by norm_num) (by norm_num)⟩

/-- Counterexample to claim C9: there is no month x for which the
required distance of day 31 of month x exceeds that of day 1 of month
x + 1; for every month 1 through 11 the value x.31 is strictly below
(x+1).01. -/
theorem distanceRule_monotone_at_boundaries :
    (((List.range 11).map (fun k => k + 1)).all
      (fun m => decide (getRequiredDistance m 31 < getRequiredDistance (m + 1) 1))) = true := by
  rw [List.all_eq_true]
  intro m hm
  rw [decide_eq_true_iff]
  rcases List.mem_map.mp hm with ⟨k, _, rfl⟩
  exact boundary_lt_aux (k + 1)

/-- Claim C9 amended: the distance rule is monotone across month
boundaries: for every month x from 1 to 11 the required distance x.31 for
day 31 of month x is strictly below the required distance (x+1).01 for day
1 of month x+1 (the boundary jump is an increase of 0.70, not a drop). -/
theorem distanceRule_boundary_increase (x : Nat) (h1 : 1 ≤ x) (h2 : x ≤ 11) :
    getRequiredDistance x 31 < getRequiredDistance (x + 1) 1 :=
  boundary_lt_aux x

/-- Witness for the amended C9 at month 3: 3.31 is below 4.01. -/
theorem distanceRule_boundary_increase_witness :
    getRequiredDistance 3 31 < getRequiredDistance 4 1 :=
  distanceRule_boundary_increase 3 (by norm_num) (by norm_num)

/-! ### Goal evaluator theorems -/

theorem checkDailyGoal_total (runs : List Run) (s : ℚ) :
    runs.foldl (fun sum run => sum + run.distance) s
      = s + (runs.map (fun r => r.distance)).sum := by
  induction runs generalizing s with
  | nil => simp
  | cons r rest ih => simp [List.foldl_cons, ih]; ring

/-- Claim C5: the goal evaluator returns the sum of the runs' distances as
totalDistance, echoes requiredDistance, sets goalMet exactly when the total
reaches the requirement (equality counts as met), and returns a shortfall
of max 0 (required - total), which is never negative. -/
theorem checkDailyGoal_spec (runs : List Run) (required : ℚ) :
    (checkDailyGoal runs required).totalDistance = (runs.map (fun r => r.distance)).sum
      ∧ (checkDailyGoal runs required).requiredDistance = required
      ∧ ((checkDailyGoal runs required).goalMet = true
          ↔ required ≤ (runs.map (fun r => r.distance)).sum)
      ∧ (checkDailyGoal runs required).shortfall
          = max 0 (required - (runs.map (fun r => r.distance)).sum)
      ∧ 0 ≤ (checkDailyGoal runs required).shortfall := by
  have htot : runs.foldl (fun sum run => sum + run.distance) 0
      = (runs.map (fun r => r.distance)).sum := by
    simpa using checkDailyGoal_total runs 0
  refine ⟨by simp [checkDailyGoal, htot], by simp [checkDailyGoal], ?_, ?_, ?_⟩
  · simp [checkDailyGoal, htot]
  · simp [checkDailyGoal, htot]
  · simp [checkDailyGoal]

/-! ### Data model

Progress records carry the fields of the daily progress table; users carry
the bailout and elimination fields of the users table.  Statuses are the
raw strings the source compares against.
-/

structure ProgressRecord where
  userId : Nat
  date : Nat
  requiredDistance : ℚ
  completedDistance : ℚ
  status : String
deriving Repr, DecidableEq

structure User where
  id : Nat
  bailoutPasses : Int
  eliminationDate : Option Nat
  eliminationReason : Option String
deriving Repr, DecidableEq

/-! ### Stable sorting

The source sorts with the runtime's stable array sort under a numeric
comparator.  Insertion sort with a non-strict comparison on the incoming
element reproduces that: equal keys keep their original relative order.
-/

def insertByDesc {α : Type} (key : α → Int) (x : α) : List α → List α
  | [] => [x]
  | y :: ys => if key y ≤ key x then x :: y :: ys else y :: insertByDesc key x ys

def stableSortByDesc {α : Type} (key : α → Int) : List α → List α
  | [] => []
  | x :: xs => insertByDesc key x (stableSortByDesc key xs)

def insertByAsc {α : Type} (key : α → Int) (x : α) : List α → List α
  | [] => [x]
  | y :: ys => if key x ≤ key y then x :: y :: ys else y :: insertByAsc key x ys

def stableSortByAsc {α : Type} (key : α → Int) : List α → List α
  | [] => []
  | x :: xs => insertByAsc key x (stableSortByAsc key xs)

/-! ### Consecutive-miss scan -/

/-- The loop of the consecutive-miss query: a missed day increments, a
completed or bailout day stops the scan, anything else is passed over. -/
def missScan : List String → Nat
  | [] => 0
  | s :: rest =>
    if s = "missed" then missScan rest + 1
    else if s = "completed" ∨ s = "bailout" then 0
    else missScan rest

/-- The most recent 10 records on or before the end date, in descending
date order, fed through the miss-scan loop. -/
def getConsecutiveMisses (store : List ProgressRecord) (userId endDate : Nat) : Nat :=
  let recentDays :=
    (stableSortByDesc (fun r => (r.date : Int))
      (store.filter (fun r => decide (r.userId = userId) && decide (r.date ≤ endDate)))).take 10
  missScan (recentDays.map (fun r => r.status))

/-- The claim's reading of the scan: count the missed entries in the
prefix that precedes the first completed or bailout entry. -/
def missCountSpec (l : List String) : Nat :=
  (l.takeWhile (fun s => !(decide (s = "completed") || decide (s = "bailout")))).countP
    (fun s => decide (s = "missed"))

theorem missScan_eq_spec (l : List String) : missScan l = missCountSpec l := by
  induction l with
  | nil => rfl
  | cons s rest ih =>
    by_cases hm : s = "missed"
    · simp [missScan, missCountSpec, hm, List.takeWhile_cons, List.countP_cons] at *
      omega
    · by_cases hc : s = "completed" ∨ s = "bailout"
      · have hnc : ¬(s = "missed") := hm
        simp [missScan, missCountSpec, hnc, List.takeWhile_cons]
        rcases hc with h | h <;> simp [h, missScan]
      · push_neg at hc
        simp [missScan, missCountSpec, hm, hc.1, hc.2, List.takeWhile_cons,
          List.countP_cons] at *
        exact ih

/-- Claim C1: the consecutive-miss count scans at most the 10 most recent
records dated on or before the as-of date in descending order and returns
the number of missed entries before the first completed or bailout entry,
passing over every other status without counting and without stopping; on
the descending history missed, missed, completed, missed it returns 2. -/
theorem getConsecutiveMisses_spec (store : List ProgressRecord) (userId endDate : Nat) :
    getConsecutiveMisses store userId endDate
        = missCountSpec
            (((stableSortByDesc (fun r => (r.date : Int))
                (store.filter (fun r =>
                  decide (r.userId = userId) && decide (r.date ≤ endDate)))).take 10).map
              (fun r => r.status))
      ∧ getConsecutiveMisses
          [⟨1, 4, 1, 0, "missed"⟩, ⟨1, 3, 1, 0, "missed"⟩,
           ⟨1, 2, 1, 0, "completed"⟩, ⟨1, 1, 1, 0, "missed"⟩] 1 4 = 2 :=
  ⟨missScan_eq_spec _, by decide⟩

/-! ### Bailout ledger -/

/-- The guarded decrement: only a row with a positive balance is updated. -/
def useBailoutPass (users : List User) (userId : Nat) : List User :=
  users.map (fun u =>
    if u.id = userId ∧ 0 < u.bailoutPasses then
      { u with bailoutPasses := u.bailoutPasses - 1 }
    else u)

/-- Read a user's bailout balance, defaulting to 0 when the user is
absent, as the balance query does. -/
def getBailoutPasses (users : List User) (userId : Nat) : Int :=
  match users.find? (fun u => decide (u.id = userId)) with
  | some u => u.bailoutPasses
  | none => 0

/-- A sequence of bailout uses, applied in order. -/
def applyBailoutCalls (users : List User) (calls : List Nat) : List User :=
  calls.foldl (fun s c => useBailoutPass s c) users

theorem getBailoutPasses_after_use (users : List User) (userId : Nat) :
    getBailoutPasses (useBailoutPass users userId) userId
      = if 0 < getBailoutPasses users userId then getBailoutPasses users userId - 1
        else getBailoutPasses users userId := by
  induction users with
  | nil => simp [useBailoutPass, getBailoutPasses]
  | cons u rest ih =>
    by_cases h : u.id = userId
    · by_cases hp : 0 < u.bailoutPasses <;>
        simp [useBailoutPass, getBailoutPasses, List.find?_cons, h, hp]
    · simp only [useBailoutPass, List.map_cons] at *
      simp only [getBailoutPasses, List.find?_cons] at *
      have hcond : ¬(u.id = userId ∧ 0 < u.bailoutPasses) := fun hc => h hc.1
      simp [hcond, h] at *
      exact ih

theorem useBailoutPass_nonneg (users : List User) (userId : Nat)
    (h : ∀ u ∈ users, 0 ≤ u.bailoutPasses) :
    ∀ u ∈ useBailoutPass users userId, 0 ≤ u.bailoutPasses := by
  intro u hu
  rcases List.mem_map.mp hu with ⟨v, hv, rfl⟩
  by_cases hc : v.id = userId ∧ 0 < v.bailoutPasses
  · simp [hc]
    omega
  · simpa [hc] using h v hv

theorem applyBailoutCalls_nonneg (calls : List Nat) (users : List User)
    (h : ∀ u ∈ users, 0 ≤ u.bailoutPasses) :
    ∀ u ∈ applyBailoutCalls users calls, 0 ≤ u.bailoutPasses := by
  induction calls generalizing users with
  | nil => exact h
  | cons c rest ih =>
    exact ih (useBailoutPass users c) (useBailoutPass_nonneg users c h)

/-- Claim C7: a bailout use decrements a positive balance by exactly one
and leaves a zero balance unchanged as a silent no-op, and starting from
nonnegative balances, no sequence of bailout uses ever produces a negative
balance. -/
theorem useBailoutPass_spec (users : List User) (userId : Nat) (calls : List Nat) :
    (getBailoutPasses (useBailoutPass users userId) userId
        = if 0 < getBailoutPasses users userId then getBailoutPasses users userId - 1
          else getBailoutPasses users userId)
      ∧ ((∀ u ∈ users, 0 ≤ u.bailoutPasses)
          → ∀ u ∈ applyBailoutCalls users calls, 0 ≤ u.bailoutPasses) :=
  ⟨getBailoutPasses_after_use users userId, applyBailoutCalls_nonneg calls users⟩

/-- Witness for C7: a balance of 2 becomes 1 after one use, and three
further uses starting from balance 2 leave every balance nonnegative. -/
theorem useBailoutPass_spec_witness :
    getBailoutPasses (useBailoutPass [⟨1, 2, none, none⟩] 1) 1 = 1
      ∧ ∀ u ∈ applyBailoutCalls [⟨1, 2, none, none⟩] [1, 1, 1], 0 ≤ u.bailoutPasses := by
  have h := useBailoutPass_spec [⟨1, 2, none, none⟩] 1 [1, 1, 1]
  constructor
  · rw [h.1]
    decide
  · exact h.2 (by decide)

/-! ### Elimination controller -/

/-- Result of a streak validation. -/
structure StreakStatus where
  status : String
  reason : Option String
deriving Repr, DecidableEq

/-- Write the elimination date and reason to the matching user row. -/
def eliminateUser (users : List User) (userId : Nat) (eliminationDate : Nat)
    (reason : String) : List User :=
  users.map (fun u =>
    if u.id = userId then
      { u with eliminationDate := some eliminationDate, eliminationReason := some reason }
    else u)

/-- The elimination decision: three or more consecutive misses eliminate
the user and persist the date and reason, exactly two misses warn, fewer
leave the user active.  The evaluation date is passed in explicitly where
the source reads the ambient clock. -/
def validateStreak (users : List User) (userId consecutiveMisses today : Nat) :
    StreakStatus × List User :=
  if 3 ≤ consecutiveMisses then
    ({ status := "eliminated", reason := some "Three consecutive missed days" },
      eliminateUser users userId today "Three consecutive missed days")
  else if consecutiveMisses = 2 then
    ({ status := "at_risk",
       reason := some "Two consecutive misses - one more and you\x27re eliminated!" }, users)
  else
    ({ status := "active", reason := none }, users)

theorem eliminateUser_mem (users : List User) (userId d : Nat) (r : String) :
    ∀ u ∈ eliminateUser users userId d r,
      u.id = userId → u.eliminationDate = some d ∧ u.eliminationReason = some r := by
  intro u hu
  rcases List.mem_map.mp hu with ⟨v, _, rfl⟩
  by_cases h : v.id = userId <;> simp [h]

theorem eliminateUser_idem (users : List User) (userId d : Nat) (r : String) :
    eliminateUser (eliminateUser users userId d r) userId d r
      = eliminateUser users userId d r := by
  induction users with
  | nil => rfl
  | cons u rest ih =>
    simp only [eliminateUser, List.map_cons] at *
    by_cases h : u.id = userId <;> simp [h, ih]

/-- Claim C2: three or more consecutive misses yield status eliminated
with reason three consecutive missed days and write the evaluation date
and that reason to the user's elimination fields, a repeat invocation
merely overwriting the same values; exactly two misses yield at_risk with
a warning reason and no write; zero or one yield active with no reason and
no write. -/
theorem validateStreak_spec (users : List User) (userId m today : Nat) :
    (3 ≤ m →
      (validateStreak users userId m today).1.status = "eliminated"
        ∧ (validateStreak users userId m today).1.reason
            = some "Three consecutive missed days"
        ∧ (validateStreak users userId m today).2
            = eliminateUser users userId today "Three consecutive missed days"
        ∧ (∀ u ∈ (validateStreak users userId m today).2,
            u.id = userId → u.eliminationDate = some today
              ∧ u.eliminationReason = some "Three consecutive missed days")
        ∧ (validateStreak (validateStreak users userId m today).2 userId m today).2
            = (validateStreak users userId m today).2)
      ∧ (m = 2 →
          (validateStreak users userId m today).1.status = "at_risk"
            ∧ ((validateStreak users userId m today).1.reason).isSome = true
            ∧ (validateStreak users userId m today).2 = users)
      ∧ (m = 0 ∨ m = 1 →
          (validateStreak users userId m today).1.status = "active"
            ∧ (validateStreak users userId m today).1.reason = none
            ∧ (validateStreak users userId m today).2 = users) := by
  refine ⟨fun h3 => ?_, fun h2 => ?_, fun h01 => ?_⟩
  · simp only [validateStreak, if_pos h3]
    refine ⟨?_, ?_, ?_, ?_, ?_⟩ <;>
      first
        | trivial
        | exact eliminateUser_mem users userId today _
        | exact eliminateUser_idem users userId today _
  · subst h2
    simp [validateStreak]
  · rcases h01 with h | h <;> subst h <;> simp [validateStreak]

/-- Witness for C2 on a one-user store: three misses eliminate and stamp
the date, two misses warn, zero misses leave the user active. -/
theorem validateStreak_spec_witness :
    (validateStreak [⟨1, 4, none, none⟩] 1 3 7).1.status = "eliminated"
      ∧ (∀ u ∈ (validateStreak [⟨1, 4, none, none⟩] 1 3 7).2,
          u.id = 1 → u.eliminationDate = some 7)
      ∧ (validateStreak [⟨1, 4, none, none⟩] 1 2 7).1.status = "at_risk"
      ∧ (validateStreak [⟨1, 4, none, none⟩] 1 0 7).1.status = "active" :=
  ⟨((validateStreak_spec [⟨1, 4, none, none⟩] 1 3 7).1 (by norm_num)).1,
    fun u hu h =>
      (((validateStreak_spec [⟨1, 4, none, none⟩] 1 3 7).1 (by norm_num)).2.2.2.1 u hu h).1,
    ((validateStreak_spec [⟨1, 4, none, none⟩] 1 2 7).2.1 rfl).1,
    ((validateStreak_spec [⟨1, 4, none, none⟩] 1 0 7).2.2 (Or.inl rfl)).1⟩

/-! ### Streak analyzer

The source sorts the records ascending by date, walks them once keeping a
running streak that completed or bailout entries extend, missed entries
reset and anything else leaves untouched, and walks the reversed list to
count the current streak, stopping at the first missed entry.
-/

def isRunStatus (s : String) : Bool :=
  decide (s = "completed") || decide (s = "bailout")

def isMissedStatus (s : String) : Bool :=
  decide (s = "missed")

def isTrackedStatus (s : String) : Bool :=
  isRunStatus s || isMissedStatus s

structure StreakResult where
  currentStreak : Nat
  longestStreak : Nat
deriving Repr, DecidableEq

/-- The forward loop of the streak computation, carrying the running and
best streak counters. -/
def streakScan : List String → Nat → Nat → Nat × Nat
  | [], temp, longest => (temp, longest)
  | s :: rest, temp, longest =>
    if s = "completed" ∨ s = "bailout" then
      streakScan rest (temp + 1) (max longest (temp + 1))
    else if s = "missed" then streakScan rest 0 longest
    else streakScan rest temp longest

/-- The backward loop: count completed and bailout entries, stop at the
first missed entry, pass over anything else. -/
def currentScan : List String → Nat
  | [] => 0
  | s :: rest =>
    if s = "completed" ∨ s = "bailout" then currentScan rest + 1
    else if s = "missed" then 0
    else currentScan rest

/-- Streak statistics of a progress history. -/
def calculateStreaks (progressData : List ProgressRecord) : StreakResult :=
  let sorted := stableSortByAsc (fun r => (r.date : Int)) progressData
  let sts := sorted.map (fun r => r.status)
  { currentStreak := currentScan sts.reverse
    longestStreak := (streakScan sts 0 0).2 }

/-- Maximal blocks of the status list delimited by missed entries. -/
def splitOnMissed : List String → List (List String)
  | [] => [[]]
  | s :: rest =>
    match splitOnMissed rest with
    | [] => [[]]
    | g :: gs => if s = "missed" then [] :: g :: gs else (s :: g) :: gs

/-- The claim's reading of the longest streak: among the statuses that
either extend or reset a streak, in ascending date order, the greatest
length of a block of streak-extending entries between two resets. -/
def longestStreakSpec (records : List ProgressRecord) : Nat :=
  let sts := ((stableSortByAsc (fun r => (r.date : Int)) records).map
    (fun r => r.status)).filter isTrackedStatus
  ((splitOnMissed sts).map List.length).foldr max 0

/-- The claim's reading of the current streak: scanning backward from the
most recent record, the number of completed or bailout entries before the
first missed entry, other statuses passed over without counting. -/
def currentStreakSpec (records : List ProgressRecord) : Nat :=
  let revSts := ((stableSortByAsc (fun r => (r.date : Int)) records).map
    (fun r => r.status)).reverse
  (revSts.takeWhile (fun s => !(isMissedStatus s))).countP isRunStatus

theorem splitOnMissed_ne_nil (l : List String) : splitOnMissed l ≠ [] := by
  cases l with
  | nil => simp [splitOnMissed]
  | cons s rest =>
    simp only [splitOnMissed]
    cases h : splitOnMissed rest with
    | nil => simp
    | cons g gs => by_cases hm : s = "missed" <;> simp [hm]

theorem streakScan_filter (l : List String) (t L : Nat) :
    streakScan l t L = streakScan (l.filter isTrackedStatus) t L := by
  induction l generalizing t L with
  | nil => rfl
  | cons s rest ih =>
    by_cases hr : s = "completed" ∨ s = "bailout"
    · have htr : isTrackedStatus s = true := by
        simp [isTrackedStatus, isRunStatus]
        tauto
      simp [streakScan, hr, List.filter_cons, htr, ih]
    · by_cases hm : s = "missed"
      · have htr : isTrackedStatus s = true := by
          simp [isTrackedStatus, isMissedStatus, hm]
        simp [streakScan, hr, hm, List.filter_cons, htr, ih]
      · have htr : isTrackedStatus s = false := by
          push_neg at hr
          simp [isTrackedStatus, isMissedStatus, isRunStatus, hm, hr.1, hr.2]
        simp [streakScan, hr, hm, List.filter_cons, htr, ih]

/-- Value of the longest streak over the block decomposition, given the
incoming running and best counters. -/
def specVal (t L : Nat) : List (List String) → Nat
  | [] => L
  | g :: gs => max (max L (t + g.length)) ((gs.map List.length).foldr max 0)

theorem streakScan_specVal (l : List String) (t L : Nat) (h : t ≤ L)
    (htr : ∀ s ∈ l, isTrackedStatus s = true) :
    (streakScan l t L).2 = specVal t L (splitOnMissed l) := by
  induction l generalizing t L with
  | nil =>
    simp [streakScan, splitOnMissed, specVal]
    omega
  | cons s rest ih =>
    have hrest : ∀ x ∈ rest, isTrackedStatus x = true :=
      fun x hx => htr x (List.mem_cons_of_mem s hx)
    obtain ⟨g, gs, hsplit⟩ : ∃ g gs, splitOnMissed rest = g :: gs := by
      cases h' : splitOnMissed rest with
      | nil => exact absurd h' (splitOnMissed_ne_nil rest)
      | cons g gs => exact ⟨g, gs, rfl⟩
    by_cases hr : s = "completed" ∨ s = "bailout"
    · have hm : ¬(s = "missed") := by
        rcases hr with h' | h' <;> subst h' <;> decide
      simp only [streakScan, if_pos hr, splitOnMissed, hsplit, if_neg hm]
      rw [ih (t + 1) (max L (t + 1)) (le_max_right L (t + 1)) hrest, hsplit]
      simp only [specVal, List.length_cons]
      omega
    · have hm : s = "missed" := by
        have := htr s (List.mem_cons_self s rest)
        simp [isTrackedStatus, isRunStatus, isMissedStatus] at this
        tauto
      simp only [streakScan, if_neg hr, if_pos hm, splitOnMissed, hsplit, if_pos hm]
      rw [ih 0 L (Nat.zero_le L) hrest, hsplit]
      simp only [specVal, List.length_nil, List.map_cons, List.foldr_cons]
      omega

theorem streakScan_longest (l : List String) :
    (streakScan l 0 0).2
      = ((splitOnMissed (l.filter isTrackedStatus)).map List.length).foldr max 0 := by
  rw [streakScan_filter]
  rw [streakScan_specVal (l.filter isTrackedStatus) 0 0 (le_refl 0)
    (fun s hs => (List.mem_filter.mp hs).2)]
  obtain ⟨g, gs, hsplit⟩ : ∃ g gs, splitOnMissed (l.filter isTrackedStatus) = g :: gs := by
    cases h' : splitOnMissed (l.filter isTrackedStatus) with
    | nil => exact absurd h' (splitOnMissed_ne_nil _)
    | cons g gs => exact ⟨g, gs, rfl⟩
  rw [hsplit]
  simp [specVal]

theorem currentScan_append (xs ys : List String) :
    currentScan (xs ++ ys)
      = if xs.any isMissedStatus then currentScan xs else currentScan xs + currentScan ys := by
  induction xs with
  | nil => simp [currentScan]
  | cons s rest ih =>
    by_cases hr : s = "completed" ∨ s = "bailout"
    · have hm : ¬(s = "missed") := by
        rcases hr with h' | h' <;> subst h' <;> decide
      have hms : isMissedStatus s = false := by simp [isMissedStatus, hm]
      simp only [List.cons_append, currentScan, List.append_eq, if_pos hr, ih,
        List.any_cons, hms, Bool.false_or]
      split_ifs <;> omega
    · by_cases hm : s = "missed"
      · have hms : isMissedStatus s = true := by simp [isMissedStatus, hm]
        simp only [List.cons_append, currentScan, if_neg hr, if_pos hm, List.any_cons,
          hms, Bool.true_or]
        simp
      · have hms : isMissedStatus s = false := by simp [isMissedStatus, hm]
        simp only [List.cons_append, currentScan, if_neg hr, if_neg hm, List.any_cons,
          hms, Bool.false_or]
        exact ih

theorem streakScan_fst (l : List String) (t L : Nat) :
    (streakScan l t L).1
      = if l.any isMissedStatus then currentScan l.reverse
        else t + currentScan l.reverse := by
  induction l generalizing t L with
  | nil => simp [streakScan, currentScan]
  | cons s rest ih =>
    by_cases hr : s = "completed" ∨ s = "bailout"
    · have hm : ¬(s = "missed") := by
        rcases hr with h' | h' <;> subst h' <;> decide
      have hms : isMissedStatus s = false := by simp [isMissedStatus, hm]
      have hcur : currentScan [s] = 1 := by simp [currentScan, hr]
      simp only [streakScan, if_pos hr, ih, List.reverse_cons, currentScan_append,
        List.any_cons, hms, hcur, List.any_reverse]
      by_cases ha : rest.any isMissedStatus <;> simp [ha] <;> omega
    · by_cases hm : s = "missed"
      · have hms : isMissedStatus s = true := by simp [isMissedStatus, hm]
        have hcur : currentScan [s] = 0 := by simp [currentScan, hr, hm]
        simp only [streakScan, if_neg hr, if_pos hm, ih, List.reverse_cons,
          currentScan_append, List.any_cons, hms, hcur, List.any_reverse]
        by_cases ha : rest.any isMissedStatus <;> simp [ha]
      · have hms : isMissedStatus s = false := by simp [isMissedStatus, hm]
        have hcur : currentScan [s] = 0 := by simp [currentScan, hr, hm]
        simp only [streakScan, if_neg hr, if_neg hm, ih, List.reverse_cons,
          currentScan_append, List.any_cons, hms, hcur, List.any_reverse]
        by_cases ha : rest.any isMissedStatus <;> simp [ha]

theorem streakScan_fst_le_snd (l : List String) (t L : Nat) (h : t ≤ L) :
    (streakScan l t L).1 ≤ (streakScan l t L).2 := by
  induction l generalizing t L with
  | nil => simpa [streakScan] using h
  | cons s rest ih =>
    by_cases hr : s = "completed" ∨ s = "bailout"
    · simpa [streakScan, hr] using ih (t + 1) (max L (t + 1)) (le_max_right L (t + 1))
    · by_cases hm : s = "missed"
      · simpa [streakScan, hr, hm] using ih 0 L (Nat.zero_le L)
      · simpa [streakScan, hr, hm] using ih t L h

theorem currentScan_eq_spec (l : List String) :
    currentScan l = (l.takeWhile (fun s => !(isMissedStatus s))).countP isRunStatus := by
  induction l with
  | nil => rfl
  | cons s rest ih =>
    by_cases hr : s = "completed" ∨ s = "bailout"
    · have hm : ¬(s = "missed") := by
        rcases hr with h' | h' <;> subst h' <;> decide
      have hms : isMissedStatus s = false := by simp [isMissedStatus, hm]
      have hruns : isRunStatus s = true := by
        simp [isRunStatus]
        tauto
      simp [currentScan, hr, List.takeWhile_cons, hms, List.countP_cons, hruns, ih]
    · by_cases hm : s = "missed"
      · have hms : isMissedStatus s = true := by simp [isMissedStatus, hm]
        simp only [currentScan, if_neg hr, if_pos hm, List.takeWhile_cons, hms,
          Bool.not_true]
        simp
      · have hms : isMissedStatus s = false := by simp [isMissedStatus, hm]
        have hruns : isRunStatus s = false := by
          push_neg at hr
          simp [isRunStatus, hr.1, hr.2]
        simp [currentScan, hr, hm, List.takeWhile_cons, hms, List.countP_cons, hruns, ih]

/-- Claim C6: the streak computation sorts the records ascending by date
and returns as longest streak the maximum length of a positional run of
completed or bailout entries, a missed entry resetting the run and any
other status neither extending nor resetting it, and as current streak
the number of completed or bailout entries scanning backward from the
most recent record, stopping at the first missed entry and passing over
other statuses without counting. -/
theorem calculateStreaks_spec (records : List ProgressRecord) :
    calculateStreaks records
      = { currentStreak := currentStreakSpec records
          longestStreak := longestStreakSpec records } := by
  unfold calculateStreaks currentStreakSpec longestStreakSpec
  refine congrArg₂ StreakResult.mk ?_ ?_
  · exact currentScan_eq_spec _
  · exact streakScan_longest _

/-- Claim C10: for every progress history the current streak never
exceeds the longest streak. -/
theorem currentStreak_le_longestStreak (records : List ProgressRecord) :
    (calculateStreaks records).currentStreak ≤ (calculateStreaks records).longestStreak := by
  unfold calculateStreaks
  set sts := ((stableSortByAsc (fun r => (r.date : Int)) records).map (fun r => r.status))
    with hsts
  have h1 : (streakScan sts 0 0).1 = currentScan sts.reverse := by
    rw [streakScan_fst]
    split <;> simp
  calc currentScan sts.reverse = (streakScan sts 0 0).1 := h1.symm
    _ ≤ (streakScan sts 0 0).2 := streakScan_fst_le_snd sts 0 0 (le_refl 0)

/-! ### Stable sort permutation lemmas -/

theorem insertByDesc_perm {α : Type} (key : α → Int) (x : α) (l : List α) :
    List.Perm (insertByDesc key x l) (x :: l) := by
  induction l with
  | nil => exact List.Perm.refl _
  | cons y ys ih =>
    by_cases h : key y ≤ key x
    · simp only [insertByDesc, if_pos h]
      exact List.Perm.refl _
    · simp only [insertByDesc, if_neg h]
      exact (ih.cons y).trans (List.Perm.swap x y ys)

theorem stableSortByDesc_perm {α : Type} (key : α → Int) (l : List α) :
    List.Perm (stableSortByDesc key l) l := by
  induction l with
  | nil => exact List.Perm.refl _
  | cons x xs ih => exact (insertByDesc_perm key x _).trans (ih.cons x)

theorem stableSortByDesc_length {α : Type} (key : α → Int) (l : List α) :
    (stableSortByDesc key l).length = l.length :=
  (stableSortByDesc_perm key l).length_eq

/-! ### Progress store

The daily progress table enforces one row per user and date; the upsert
inserts a fresh row or, on conflict, overwrites only the completed
distance and the status, leaving the stored required distance in place.
The range query filters by user and date window and orders by date
descending.
-/

/-- The unique key of the daily progress table. -/
def progressKey (userId date : Nat) : ProgressRecord → Bool :=
  fun r => decide (r.userId = userId) && decide (r.date = date)

/-- The conflict action of the upsert: overwrite completed distance and
status of the matching row, leave everything else alone. -/
def updateRecord (userId date : Nat) (completedDistance : ℚ) (status : String)
    (r : ProgressRecord) : ProgressRecord :=
  if r.userId = userId ∧ r.date = date then
    { r with completedDistance := completedDistance, status := status }
  else r

/-- Insert a progress row, or on key conflict overwrite only the
completed distance and status. -/
def saveDailyProgress (store : List ProgressRecord) (userId date : Nat)
    (requiredDistance completedDistance : ℚ) (status : String) : List ProgressRecord :=
  if store.any (progressKey userId date) then
    store.map (updateRecord userId date completedDistance status)
  else
    store ++ [{ userId := userId, date := date, requiredDistance := requiredDistance,
                completedDistance := completedDistance, status := status }]

/-- The range filter of the progress query. -/
def inRange (userId startDate endDate : Nat) : ProgressRecord → Bool :=
  fun r => decide (r.userId = userId) && decide (startDate ≤ r.date)
    && decide (r.date ≤ endDate)

/-- Progress rows of a user inside a date window, most recent first. -/
def getDailyProgress (store : List ProgressRecord) (userId startDate endDate : Nat) :
    List ProgressRecord :=
  stableSortByDesc (fun r => (r.date : Int)) (store.filter (inRange userId startDate endDate))

/-- The table invariant: at most one row per user and date. -/
def atMostOnePerKey (store : List ProgressRecord) : Prop :=
  ∀ userId date, (store.filter (progressKey userId date)).length ≤ 1

/-- The required distance the store holds for a key after an upsert that
passed the value req: the pre-existing row's value when a row existed,
otherwise req. -/
def requiredAfter (store : List ProgressRecord) (userId date : Nat) (req : ℚ) : ℚ :=
  match store.find? (progressKey userId date) with
  | some r0 => r0.requiredDistance
  | none => req

theorem progressKey_updateRecord (uid d uid2 d2 : Nat) (comp : ℚ) (st : String)
    (r : ProgressRecord) :
    progressKey uid2 d2 (updateRecord uid d comp st r) = progressKey uid2 d2 r := by
  unfold updateRecord progressKey
  by_cases h : r.userId = uid ∧ r.date = d <;> simp [h]

theorem filter_map_updateRecord (uid d uid2 d2 : Nat) (comp : ℚ) (st : String)
    (store : List ProgressRecord) :
    (store.map (updateRecord uid d comp st)).filter (progressKey uid2 d2)
      = (store.filter (progressKey uid2 d2)).map (updateRecord uid d comp st) := by
  rw [List.filter_map]
  congr 1
  apply List.filter_congr
  intro r _
  exact progressKey_updateRecord uid d uid2 d2 comp st r

theorem find?_eq_head?_filter {α : Type} (p : α → Bool) (l : List α) :
    l.find? p = (l.filter p).head? := by
  induction l with
  | nil => rfl
  | cons a as ih =>
    cases hpa : p a with
    | true =>
      rw [List.find?_cons, List.filter_cons, hpa]
      rfl
    | false =>
      rw [List.find?_cons, List.filter_cons, hpa]
      simpa using ih

theorem upsert_filter_key (store : List ProgressRecord) (uid d : Nat) (req comp : ℚ)
    (st : String) (h1 : atMostOnePerKey store) :
    (saveDailyProgress store uid d req comp st).filter (progressKey uid d)
      = [{ userId := uid, date := d, requiredDistance := requiredAfter store uid d req,
           completedDistance := comp, status := st }] := by
  by_cases hany : store.any (progressKey uid d) = true
  · unfold saveDailyProgress
    rw [if_pos hany, filter_map_updateRecord]
    obtain ⟨r0, hr0⟩ : ∃ r0, store.filter (progressKey uid d) = [r0] := by
      have hne : store.filter (progressKey uid d) ≠ [] := by
        rw [Ne, List.filter_eq_nil_iff]
        rcases List.any_eq_true.mp hany with ⟨r, hr, hpr⟩
        exact fun hall => hall r hr hpr
      have hlen := h1 uid d
      cases hfe : store.filter (progressKey uid d) with
      | nil => exact absurd hfe hne
      | cons a as =>
        cases as with
        | nil => exact ⟨a, rfl⟩
        | cons b bs => rw [hfe] at hlen; simp at hlen
    have hmem : r0 ∈ store.filter (progressKey uid d) := by
      rw [hr0]; exact List.mem_singleton.mpr rfl
    have hkey : progressKey uid d r0 = true := (List.mem_filter.mp hmem).2
    have hfind : store.find? (progressKey uid d) = some r0 := by
      rw [find?_eq_head?_filter, hr0]; rfl
    have hreq : requiredAfter store uid d req = r0.requiredDistance := by
      unfold requiredAfter; rw [hfind]
    rw [hr0, hreq]
    have hk : r0.userId = uid ∧ r0.date = d := by
      simpa [progressKey] using hkey
    simp only [List.map_cons, List.map_nil, updateRecord, if_pos hk]
    cases r0
    obtain ⟨rfl, rfl⟩ := hk
    rfl
  · unfold saveDailyProgress
    rw [if_neg hany, List.filter_append]
    have hfalse : store.any (progressKey uid d) = false := by
      cases hb : store.any (progressKey uid d) with
      | false => rfl
      | true => exact absurd hb hany
    have h2 : store.filter (progressKey uid d) = [] := by
      rw [List.filter_eq_nil_iff]
      exact List.any_eq_false.mp hfalse
    have h3 : progressKey uid d { userId := uid, date := d, requiredDistance := req,
                                  completedDistance := comp, status := st } = true := by
      simp [progressKey]
    have h4 : requiredAfter store uid d req = req := by
      unfold requiredAfter
      rw [List.find?_eq_none.mpr (List.any_eq_false.mp hfalse)]
    rw [h2, h4]
    simp [List.filter_cons, h3]

theorem saveDailyProgress_atMostOne (store : List ProgressRecord) (uid d : Nat)
    (req comp : ℚ) (st : String) (h : atMostOnePerKey store) :
    atMostOnePerKey (saveDailyProgress store uid d req comp st) := by
  intro uid2 d2
  by_cases hany : store.any (progressKey uid d) = true
  · unfold saveDailyProgress
    rw [if_pos hany, filter_map_updateRecord, List.length_map]
    exact h uid2 d2
  · unfold saveDailyProgress
    rw [if_neg hany, List.filter_append]
    have hfalse : store.any (progressKey uid d) = false := by
      cases hb : store.any (progressKey uid d) with
      | false => rfl
      | true => exact absurd hb hany
    by_cases hk : uid2 = uid ∧ d2 = d
    · obtain ⟨rfl, rfl⟩ := hk
      have h2 : store.filter (progressKey uid2 d2) = [] := by
        rw [List.filter_eq_nil_iff]
        exact List.any_eq_false.mp hfalse
      rw [h2, List.nil_append]
      exact le_trans (List.length_filter_le _ _) (by simp)
    · have h3 : progressKey uid2 d2 { userId := uid, date := d, requiredDistance := req,
                                      completedDistance := comp, status := st } = false := by
        simp only [progressKey]
        rw [Bool.and_eq_false_iff]
        rcases Decidable.not_and_iff_or_not.mp hk with h' | h'
        · left; simpa using fun he => h' he.symm
        · right; simpa using fun he => h' he.symm
      rw [List.filter_cons, h3]
      simpa using h uid2 d2

theorem roundtrip_aux (store2 : List ProgressRecord) (uid d lo hi : Nat)
    (w : ProgressRecord) (hlo : lo ≤ d) (hhi : d ≤ hi)
    (hw : store2.filter (progressKey uid d) = [w]) :
    (getDailyProgress store2 uid lo hi).filter (progressKey uid d) = [w] := by
  have hperm : List.Perm
      ((getDailyProgress store2 uid lo hi).filter (progressKey uid d))
      ((store2.filter (inRange uid lo hi)).filter (progressKey uid d)) :=
    (stableSortByDesc_perm _ _).filter _
  have hcomb : (store2.filter (inRange uid lo hi)).filter (progressKey uid d)
      = store2.filter (progressKey uid d) := by
    rw [List.filter_filter]
    apply List.filter_congr
    intro r _
    by_cases h1 : r.userId = uid <;> by_cases h2 : r.date = d <;>
      simp [progressKey, inRange, h1, h2] <;> omega
  rw [hcomb, hw] at hperm
  exact List.perm_singleton.mp hperm

/-- Counterexample to claim C8: upserting required distance 2 for a key
that already holds a row with required distance 1 and then querying the
window returns the row with the old required distance 1, not the passed
value 2. -/
theorem saveDailyProgress_keeps_old_required_cex :
    getDailyProgress (saveDailyProgress [⟨1, 5, 1, 0, "pending"⟩] 1 5 2 3 "completed") 1 0 9
        = [⟨1, 5, 1, 3, "completed"⟩]
      ∧ (2 : ℚ) ≠ 1 := by
  constructor
  · rfl
  · norm_num

/-- Claim C8 amended: an upsert followed by a range query over a window
containing the date returns exactly one record for the key, carrying the
completed distance and status passed to the upsert, and carrying the
passed required distance only when no row existed for the key, the
pre-existing row's required distance otherwise; the at-most-one-row-per-key
invariant is preserved. -/
theorem saveDailyProgress_roundtrip (store : List ProgressRecord) (uid d lo hi : Nat)
    (req comp : ℚ) (st : String)
    (hlo : lo ≤ d) (hhi : d ≤ hi) (h : atMostOnePerKey store) :
    atMostOnePerKey (saveDailyProgress store uid d req comp st)
      ∧ (getDailyProgress (saveDailyProgress store uid d req comp st) uid lo hi).filter
          (progressKey uid d)
        = [{ userId := uid, date := d, requiredDistance := requiredAfter store uid d req,
             completedDistance := comp, status := st }] :=
  ⟨saveDailyProgress_atMostOne store uid d req comp st h,
    roundtrip_aux _ uid d lo hi _ hlo hhi (upsert_filter_key store uid d req comp st h)⟩

/-- Witness for the amended C8 at a one-row store holding required
distance 1 for the key. -/
theorem saveDailyProgress_roundtrip_witness :
    (getDailyProgress (saveDailyProgress [⟨1, 5, 1, 0, "pending"⟩] 1 5 2 3 "completed")
        1 0 9).filter (progressKey 1 5)
      = [{ userId := 1, date := 5,
           requiredDistance := requiredAfter [⟨1, 5, 1, 0, "pending"⟩] 1 5 2,
           completedDistance := 3, status := "completed" }] :=
  (saveDailyProgress_roundtrip [⟨1, 5, 1, 0, "pending"⟩] 1 5 0 9 2 3 "completed"
    (by norm_num) (by norm_num) (fun uid d => List.length_filter_le _ _)).2

/-! ### Winner resolver

The source splits users into active and eliminated, pools the active ones
or, when none are active, the eliminated ones sorted most recently
eliminated first, and then breaks ties by total completed days and by
longest streak, each sort stable.
-/

/-- Number of days a history marks completed. -/
def getTotalDaysRun (progressData : List ProgressRecord) : Nat :=
  (progressData.filter (fun d => decide (d.status = "completed"))).length

/-- The winner determination algorithm, as the source runs it, including
its redundant second narrowing step. -/
def determineWinner (users : List User) (pm : Nat → List ProgressRecord) : Option User :=
  let active := users.filter (fun u => decide (u.eliminationDate = none))
  let eliminated := stableSortByDesc (fun u => ((u.eliminationDate.getD 0 : Nat) : Int))
    (users.filter (fun u => !decide (u.eliminationDate = none)))
  let candidates := if 0 < active.length then active else eliminated
  if candidates.length = 0 then none
  else if candidates.length = 1 then candidates.head?
  else
    let candidates2 :=
      if 0 < active.length ∧ 0 < eliminated.length then active else candidates
    if candidates2.length = 1 then candidates2.head?
    else
      match stableSortByDesc (fun u => (getTotalDaysRun (pm u.id) : Int)) candidates2 with
      | [] => none
      | [u0] => some u0
      | u0 :: u1 :: rest =>
        if getTotalDaysRun (pm u1.id) < getTotalDaysRun (pm u0.id) then some u0
        else
          (stableSortByDesc (fun u => ((calculateStreaks (pm u.id)).longestStreak : Int))
            (u0 :: u1 :: rest)).head?

/-- The claim's reading of the resolver: the pool is the non-eliminated
users or, when every user is eliminated, all users ordered by elimination
date descending; the pool is stably sorted by completed-day count
descending, the top candidate wins outright when its count strictly
exceeds the runner-up's, and otherwise a stable sort by longest streak
decides, deeper ties falling to the first element the prior sort left. -/
def winnerSpec (users : List User) (pm : Nat → List ProgressRecord) : Option User :=
  let pool :=
    if users.all (fun u => !decide (u.eliminationDate = none)) then
      stableSortByDesc (fun u => ((u.eliminationDate.getD 0 : Nat) : Int)) users
    else users.filter (fun u => decide (u.eliminationDate = none))
  match stableSortByDesc (fun u => (getTotalDaysRun (pm u.id) : Int)) pool with
  | [] => none
  | [u] => some u
  | u0 :: u1 :: rest =>
    if getTotalDaysRun (pm u1.id) < getTotalDaysRun (pm u0.id) then some u0
    else
      some ((stableSortByDesc (fun u => ((calculateStreaks (pm u.id)).longestStreak : Int))
        (u0 :: u1 :: rest)).headD u0)

theorem select_eq (pm : Nat → List ProgressRecord) (c : List User) :
    (if c.length = 0 then none
      else if c.length = 1 then c.head?
      else if c.length = 1 then c.head?
      else
        match stableSortByDesc (fun u => (getTotalDaysRun (pm u.id) : Int)) c with
        | [] => none
        | [u0] => some u0
        | u0 :: u1 :: rest =>
          if getTotalDaysRun (pm u1.id) < getTotalDaysRun (pm u0.id) then some u0
          else
            (stableSortByDesc (fun u => ((calculateStreaks (pm u.id)).longestStreak : Int))
              (u0 :: u1 :: rest)).head?)
      = (match stableSortByDesc (fun u => (getTotalDaysRun (pm u.id) : Int)) c with
        | [] => none
        | [u] => some u
        | u0 :: u1 :: rest =>
          if getTotalDaysRun (pm u1.id) < getTotalDaysRun (pm u0.id) then some u0
          else
            some ((stableSortByDesc
                (fun u => ((calculateStreaks (pm u.id)).longestStreak : Int))
                (u0 :: u1 :: rest)).headD u0)) := by
  cases c with
  | nil => rfl
  | cons a cs =>
    cases cs with
    | nil => rfl
    | cons b bs =>
      have h0 : ¬((a :: b :: bs).length = 0) := by simp
      have h1 : ¬((a :: b :: bs).length = 1) := by simp
      rw [if_neg h0, if_neg h1, if_neg h1]
      have hlen : (stableSortByDesc (fun u => (getTotalDaysRun (pm u.id) : Int))
          (a :: b :: bs)).length = bs.length + 2 := by
        rw [stableSortByDesc_length]
        simp
      obtain ⟨u0, u1, rest, hs⟩ : ∃ u0 u1 rest,
          stableSortByDesc (fun u => (getTotalDaysRun (pm u.id) : Int)) (a :: b :: bs)
            = u0 :: u1 :: rest := by
        cases hq : stableSortByDesc (fun u => (getTotalDaysRun (pm u.id) : Int))
            (a :: b :: bs) with
        | nil => rw [hq] at hlen; simp at hlen
        | cons u0 tl =>
          cases tl with
          | nil => rw [hq] at hlen; simp at hlen
          | cons u1 rest => exact ⟨u0, u1, rest, rfl⟩
      rw [hs]
      dsimp only
      by_cases hcmp : getTotalDaysRun (pm u1.id) < getTotalDaysRun (pm u0.id)
      · rw [if_pos hcmp, if_pos hcmp]
      · rw [if_neg hcmp, if_neg hcmp]
        have hlen2 : (stableSortByDesc
            (fun u => ((calculateStreaks (pm u.id)).longestStreak : Int))
            (u0 :: u1 :: rest)).length = rest.length + 2 := by
          rw [stableSortByDesc_length]
          simp
        cases hq2 : stableSortByDesc
            (fun u => ((calculateStreaks (pm u.id)).longestStreak : Int))
            (u0 :: u1 :: rest) with
        | nil => rw [hq2] at hlen2; simp at hlen2
        | cons w ws => rfl

theorem active_empty_iff (users : List User) :
    users.filter (fun u => decide (u.eliminationDate = none)) = []
      ↔ users.all (fun u => !decide (u.eliminationDate = none)) = true := by
  rw [List.filter_eq_nil_iff, List.all_eq_true]
  simp

theorem determineWinner_eq_aux (users : List User) (pm : Nat → List ProgressRecord) :
    determineWinner users pm = winnerSpec users pm := by
  have hiff := active_empty_iff users
  by_cases hA : users.filter (fun u => decide (u.eliminationDate = none)) = []
  · have hall : users.all (fun u => !decide (u.eliminationDate = none)) = true := hiff.mp hA
    have hE0 : users.filter (fun u => !decide (u.eliminationDate = none)) = users :=
      List.filter_eq_self.mpr (List.all_eq_true.mp hall)
    simp only [determineWinner, winnerSpec, hA, hE0, if_pos hall]
    simp only [List.length_nil, lt_self_iff_false, if_false, false_and]
    exact select_eq pm _
  · have hall2 : ¬(users.all (fun u => !decide (u.eliminationDate = none)) = true) := by
      intro h
      exact hA (hiff.mpr h)
    have hpos : 0 < (users.filter (fun u => decide (u.eliminationDate = none))).length :=
      List.length_pos.mpr hA
    simp only [determineWinner, winnerSpec, if_neg hall2, if_pos hpos, ite_self]
    exact select_eq pm _

theorem winnerSpec_match_ne_none (pm : Nat → List ProgressRecord) (pool : List User)
    (h : pool ≠ []) :
    (match stableSortByDesc (fun u => (getTotalDaysRun (pm u.id) : Int)) pool with
      | [] => none
      | [u] => some u
      | u0 :: u1 :: rest =>
        if getTotalDaysRun (pm u1.id) < getTotalDaysRun (pm u0.id) then some u0
        else
          some ((stableSortByDesc
              (fun u => ((calculateStreaks (pm u.id)).longestStreak : Int))
              (u0 :: u1 :: rest)).headD u0)) ≠ none := by
  have hlen : (stableSortByDesc (fun u => (getTotalDaysRun (pm u.id) : Int)) pool).length
      = pool.length := stableSortByDesc_length _ _
  cases hq : stableSortByDesc (fun u => (getTotalDaysRun (pm u.id) : Int)) pool with
  | nil =>
    rw [hq] at hlen
    exact absurd (List.length_eq_zero.mp hlen.symm) h
  | cons u0 tl =>
    cases tl with
    | nil => simp
    | cons u1 rest =>
      dsimp only
      by_cases hcmp : getTotalDaysRun (pm u1.id) < getTotalDaysRun (pm u0.id) <;>
        simp [hcmp]

theorem winnerSpec_ne_none (users : List User) (pm : Nat → List ProgressRecord)
    (h : users ≠ []) : winnerSpec users pm ≠ none := by
  by_cases hall : users.all (fun u => !decide (u.eliminationDate = none)) = true
  · simp only [winnerSpec, if_pos hall]
    apply winnerSpec_match_ne_none
    intro h0
    have hl := stableSortByDesc_length
      (fun u => ((u.eliminationDate.getD 0 : Nat) : Int)) users
    rw [h0] at hl
    exact h (List.length_eq_zero.mp hl.symm)
  · simp only [winnerSpec, if_neg hall]
    apply winnerSpec_match_ne_none
    intro h0
    rw [List.filter_eq_nil_iff] at h0
    have hex : ∃ u ∈ users, decide (u.eliminationDate = none) = true := by
      by_contra hc
      apply hall
      rw [List.all_eq_true]
      intro u hu
      simp only [Bool.not_eq_true']
      by_contra hd
      exact hc ⟨u, hu, by simpa using hd⟩
    rcases hex with ⟨u, hu, hdu⟩
    exact h0 u hu hdu

/-- Claim C3: the winner resolver agrees everywhere with the claim's
algorithm: none exactly on an empty user list; otherwise the candidate
pool is the non-eliminated users, falling back, when every user is
eliminated, to the users ordered by elimination date descending; among
two or more candidates a strictly larger completed-day count wins
outright, otherwise the greatest longest streak wins, deeper ties
resolving to the first element left by the prior stable sort. -/
theorem determineWinner_spec (users : List User) (pm : Nat → List ProgressRecord) :
    determineWinner users pm = winnerSpec users pm
      ∧ (determineWinner users pm = none ↔ users = []) := by
  refine ⟨determineWinner_eq_aux users pm, ?_, ?_⟩
  · intro h0
    by_contra hne
    exact winnerSpec_ne_none users pm hne
      (by rw [← determineWinner_eq_aux users pm]; exact h0)
  · intro h0
    subst h0
    rfl
